import Mathlib

/-!
Shallow embedding of the check.bin codec (`pack_checkbin.py` / `extract_checkbin.py`).

Byte buffers are modelled as `List Nat` (each element a byte value `< 256`);
Python `int` is modelled as `Int` (unbounded, possibly negative), and the
non-negative integers produced by `int.from_bytes` as `Nat`.  Fallible code
returns `Except`; `int.to_bytes(4, "little")`, which raises `OverflowError`
outside `[0, 2^32)`, is modelled as an `Option`-returning serializer.
-/

namespace Checkbin

set_option autoImplicit false
set_option maxRecDepth 10000

/-- `ENTRY_SIZE` constant shared by both scripts. -/
def ENTRY_SIZE : Nat := 260

/-- The four little-endian bytes of `n` (for `n < 2^32`):
model of `n.to_bytes(4, "little")` after the range check passed. -/
def leBytes4 (n : Nat) : List Nat :=
  [n % 256, n / 256 % 256, n / 65536 % 256, n / 16777216 % 256]

/-- Model of Python `value.to_bytes(4, "little")` on an arbitrary `int`:
raises `OverflowError` (here: `none`) unless `0 ≤ value < 2^32`. -/
def toBytes4 (v : Int) : Option (List Nat) :=
  if 0 ≤ v ∧ v < 4294967296 then some (leBytes4 v.toNat) else none

/-- Model of Python `int.from_bytes(bs, "little")`. -/
def fromBytesLE : List Nat → Nat
  | [] => 0
  | b :: rest => b + 256 * fromBytesLE rest

/-- UTF-8 encoding of one Unicode scalar value, as in `str.encode("utf-8")`. -/
def utf8Bytes (c : Nat) : List Nat :=
  if c < 128 then [c]
  else if c < 2048 then [192 + c / 64, 128 + c % 64]
  else if c < 65536 then [224 + c / 4096, 128 + c / 64 % 64, 128 + c % 64]
  else [240 + c / 262144, 128 + c / 4096 % 64, 128 + c / 64 % 64, 128 + c % 64]

/-- Model of `entry.encode("utf-8")`. -/
def encodeUtf8 (s : String) : List Nat :=
  (s.data.map (fun c => utf8Bytes c.toNat)).flatten

/-- U+FFFD, the replacement character used by `errors="replace"`. -/
def replChar : Char := Char.ofNat 65533

/-- Is `b` a UTF-8 continuation byte? -/
def isCont (b : Nat) : Bool := 128 ≤ b && b ≤ 191

/-- Valid first continuation byte after a three-byte lead `b`
(restricted ranges for `E0` and `ED` exclude overlong forms and surrogates). -/
def cont1OK3 (b b1 : Nat) : Bool :=
  if b = 224 then 160 ≤ b1 && b1 ≤ 191
  else if b = 237 then 128 ≤ b1 && b1 ≤ 159
  else isCont b1

/-- Valid first continuation byte after a four-byte lead `b`
(restricted ranges for `F0` and `F4` exclude overlong forms and values above
U+10FFFF). -/
def cont1OK4 (b b1 : Nat) : Bool :=
  if b = 240 then 144 ≤ b1 && b1 ≤ 191
  else if b = 244 then 128 ≤ b1 && b1 ≤ 143
  else isCont b1

/-- Model of `bytes.decode("utf-8", errors="replace")`: each maximal subpart of
an ill-formed subsequence is replaced by one U+FFFD; well-formed sequences
decode to their scalar value.  Total on every byte list. -/
def utf8DecodeReplace : List Nat → List Char
  | [] => []
  | b :: rest =>
    if b < 128 then Char.ofNat b :: utf8DecodeReplace rest
    else if b < 194 then replChar :: utf8DecodeReplace rest
    else if b < 224 then
      match rest with
      | [] => [replChar]
      | b1 :: rest1 =>
        if isCont b1 then
          Char.ofNat ((b - 192) * 64 + (b1 - 128)) :: utf8DecodeReplace rest1
        else replChar :: utf8DecodeReplace (b1 :: rest1)
    else if b < 240 then
      match rest with
      | [] => [replChar]
      | b1 :: rest1 =>
        if cont1OK3 b b1 then
          match rest1 with
          | [] => [replChar]
          | b2 :: rest2 =>
            if isCont b2 then
              Char.ofNat ((b - 224) * 4096 + (b1 - 128) * 64 + (b2 - 128)) ::
                utf8DecodeReplace rest2
            else replChar :: utf8DecodeReplace (b2 :: rest2)
        else replChar :: utf8DecodeReplace (b1 :: rest1)
    else if b < 245 then
      match rest with
      | [] => [replChar]
      | b1 :: rest1 =>
        if cont1OK4 b b1 then
          match rest1 with
          | [] => [replChar]
          | b2 :: rest2 =>
            if isCont b2 then
              match rest2 with
              | [] => [replChar]
              | b3 :: rest3 =>
                if isCont b3 then
                  Char.ofNat ((b - 240) * 262144 + (b1 - 128) * 4096 +
                      (b2 - 128) * 64 + (b3 - 128)) :: utf8DecodeReplace rest3
                else replChar :: utf8DecodeReplace (b3 :: rest3)
            else replChar :: utf8DecodeReplace (b2 :: rest2)
        else replChar :: utf8DecodeReplace (b1 :: rest1)
    else replChar :: utf8DecodeReplace rest

/-- `chunk.decode("utf-8", errors="replace")` as a `String`. -/
def decodeUtf8Replace (bytes : List Nat) : String :=
  String.mk (utf8DecodeReplace bytes)

/-! ## Decoder (`extract_checkbin.py`, `parse_entries`) -/

/-- The `ValueError`s `parse_entries` can raise. -/
inductive ParseError where
  | truncatedHeader
  | sizeMismatch (actual expected : Nat)
  | trailerSizeMismatch (actual expected : Nat)
deriving DecidableEq

/-- The dictionary returned by `parse_entries`. -/
structure Record where
  magic : Nat
  version : Nat
  flags : Nat
  count : Nat
  entries : List String
  metadata : List Nat
deriving DecidableEq

/-- Model of `parse_entries(data)` from `extract_checkbin.py`. -/
def parse_entries (data : List Nat) : Except ParseError Record :=
  if data.length < 16 then .error .truncatedHeader
  else
    let magic := fromBytesLE ((data.drop 0).take 4)
    let version := fromBytesLE ((data.drop 4).take 4)
    let flags := fromBytesLE ((data.drop 8).take 4)
    let count := fromBytesLE ((data.drop 12).take 4)
    let expected := 16 + count * ENTRY_SIZE + count * 4
    if data.length ≠ expected then .error (.sizeMismatch data.length expected)
    else
      let entries := (List.range count).map (fun idx =>
        decodeUtf8Replace
          (((data.drop (16 + idx * ENTRY_SIZE)).take ENTRY_SIZE).takeWhile (fun b => b != 0)))
      let trailer := data.drop (16 + count * ENTRY_SIZE)
      if trailer.length ≠ count * 4 then
        .error (.trailerSizeMismatch trailer.length (count * 4))
      else
        let metadata := (List.range count).map (fun i => fromBytesLE ((trailer.drop (4 * i)).take 4))
        .ok ⟨magic, version, flags, count, entries, metadata⟩

/-- The total size the decoder expects, computed from the count field it reads
at offsets 12..16: `16 + count*ENTRY_SIZE + count*4`. -/
def expectedSize (data : List Nat) : Nat :=
  16 + fromBytesLE ((data.drop 12).take 4) * ENTRY_SIZE +
    fromBytesLE ((data.drop 12).take 4) * 4

/-! ## Encoder (`pack_checkbin.py`, `pack_entries`) -/

/-- The exceptions `pack_entries` can raise: the two explicit `ValueError`s,
and the `OverflowError` escaping from `int.to_bytes`.  The entry-too-long
message carries the encoded length and the entry text, exactly the two values
interpolated into the Python message. -/
inductive PackError where
  | overflow
  | entryTooLong (length : Nat) (entry : String)
  | metadataCountMismatch (got expected : Nat)
deriving DecidableEq

/-- The entry-slot loop of `pack_entries`: UTF-8-encode each entry, reject
encodings longer than `ENTRY_SIZE`, right-pad with zero bytes (`ljust`). -/
def packBody : List String → Except PackError (List Nat)
  | [] => .ok []
  | e :: rest =>
    let encoded := encodeUtf8 e
    if ENTRY_SIZE < encoded.length then .error (.entryTooLong encoded.length e)
    else
      match packBody rest with
      | .error err => .error err
      | .ok tail => .ok (encoded ++ List.replicate (ENTRY_SIZE - encoded.length) 0 ++ tail)

/-- The trailer join of `pack_entries`:
`b"".join(value.to_bytes(4, "little") for value in metadata)`. -/
def trailerBytes : List Int → Option (List Nat)
  | [] => some []
  | v :: rest =>
    match toBytes4 v, trailerBytes rest with
    | some b, some t => some (b ++ t)
    | _, _ => none

/-- Model of `pack_entries(entries, header, metadata)` from `pack_checkbin.py`.
The header triple is serialized first (then the derived count), so a header
value outside `[0, 2^32)` raises before any entry is examined; the metadata
count check runs only after every entry slot was packed. -/
def pack_entries (entries : List String) (header : Int × Int × Int)
    (metadata : Option (List Int)) : Except PackError (List Nat) :=
  match toBytes4 header.1, toBytes4 header.2.1, toBytes4 header.2.2,
      toBytes4 (entries.length : Int) with
  | some b1, some b2, some b3, some bc =>
    match packBody entries with
    | .error err => .error err
    | .ok body =>
      if (metadata.getD (List.replicate entries.length 0)).length = entries.length then
        match trailerBytes (metadata.getD (List.replicate entries.length 0)) with
        | some trailer => .ok (b1 ++ b2 ++ b3 ++ bc ++ body ++ trailer)
        | none => .error .overflow
      else
        .error (.metadataCountMismatch
          (metadata.getD (List.replicate entries.length 0)).length entries.length)
  | _, _, _, _ => .error .overflow

/-! ## Loader validation (`pack_checkbin.py`, `load_entries`) -/

/-- The empty-input rejection in `load_entries`. -/
inductive LoadError where
  | emptyInput
deriving DecidableEq

/-- The final validation step of `load_entries` (`pack_checkbin.py`  lines
54-55): once the text or JSON input has been parsed into an entry list, an
empty list raises `ValueError("No entries found to pack")`. -/
def load_entries_validate (entries : List String) : Except LoadError (List String) :=
  if entries.isEmpty then .error .emptyInput else .ok entries

/-! ## Concrete values used in witnesses and counterexamples -/

/-- The 260-byte slot an entry occupies: `encoded.ljust(ENTRY_SIZE, b"\x00")`. -/
def slotFor (s : String) : List Nat :=
  encodeUtf8 s ++ List.replicate (ENTRY_SIZE - (encodeUtf8 s).length) 0

/-- The 544-byte buffer for entries `["a", "bb"]`, header `(2008, 1, 7)`,
no metadata. -/
def demoBuf : List Nat :=
  [216, 7, 0, 0, 1, 0, 0, 0, 7, 0, 0, 0, 2, 0, 0, 0] ++
    (97 :: List.replicate 259 0) ++ (98 :: 98 :: List.replicate 258 0) ++
    List.replicate 8 0

/-- The 280-byte buffer for entries `["a"]`, header `(2008, 1, 7)`, no
metadata. -/
def demoBufA : List Nat :=
  [216, 7, 0, 0, 1, 0, 0, 0, 7, 0, 0, 0, 1, 0, 0, 0] ++
    (97 :: List.replicate 259 0) ++ List.replicate 4 0

/-- The 280-byte buffer for entries `["a"]`, header `(2008, 1, 7)`, metadata
`[5]`. -/
def demoBufA5 : List Nat :=
  [216, 7, 0, 0, 1, 0, 0, 0, 7, 0, 0, 0, 1, 0, 0, 0] ++
    (97 :: List.replicate 259 0) ++ [5, 0, 0, 0]

/-- A one-character entry consisting of the NUL character U+0000. -/
def nulEntry : String := String.mk [Char.ofNat 0]

/-- The 280-byte buffer for entries `[nulEntry]`, header `(2008, 1, 7)`,
metadata `[0]`. -/
def nulBuf : List Nat :=
  [216, 7, 0, 0, 1, 0, 0, 0, 7, 0, 0, 0, 1, 0, 0, 0] ++
    List.replicate 260 0 ++ List.replicate 4 0

/-- An entry of exactly 260 ASCII characters (260 UTF-8 bytes). -/
def entry260 : String := String.mk (List.replicate 260 (Char.ofNat 97))

/-- An entry of 261 ASCII characters (261 UTF-8 bytes). -/
def entry261 : String := String.mk (List.replicate 261 (Char.ofNat 97))

deriving instance DecidableEq for Except

/-! ## Byte-level lemmas -/

theorem leBytes4_length (n : Nat) : (leBytes4 n).length = 4 := rfl

theorem leBytes4_lt (n : Nat) : ∀ x ∈ leBytes4 n, x < 256 := by
  intro x hx
  simp only [leBytes4, List.mem_cons, List.not_mem_nil, or_false] at hx
  omega

theorem fromBytesLE_leBytes4 (n : Nat) (h : n < 4294967296) :
    fromBytesLE (leBytes4 n) = n := by
  simp only [leBytes4, fromBytesLE]
  omega

theorem toBytes4_eq_some {v : Int} {b : List Nat} (h : toBytes4 v = some b) :
    0 ≤ v ∧ v < 4294967296 ∧ b = leBytes4 v.toNat := by
  unfold toBytes4 at h
  split at h
  · rename_i hr
    exact ⟨hr.1, hr.2, (Option.some.injEq _ _ ▸ h).symm⟩
  · exact absurd h (by simp)

theorem toBytes4_of_range {v : Int} (h0 : 0 ≤ v) (h1 : v < 4294967296) :
    toBytes4 v = some (leBytes4 v.toNat) := by
  unfold toBytes4
  rw [if_pos ⟨h0, h1⟩]

theorem fromBytesLE_lt (bs : List Nat) (h : ∀ x ∈ bs, x < 256) :
    fromBytesLE bs < 256 ^ bs.length := by
  induction bs with
  | nil => simp [fromBytesLE]
  | cons b rest ih =>
    have hb : b < 256 := h b (List.mem_cons_self b rest)
    have hr := ih (fun x hx => h x (List.mem_cons_of_mem b hx))
    simp only [fromBytesLE, List.length_cons, pow_succ]
    calc b + 256 * fromBytesLE rest < 256 + 256 * fromBytesLE rest := by omega
    _ ≤ 256 * (fromBytesLE rest + 1) := by ring_nf; omega
    _ ≤ 256 * 256 ^ rest.length := by
        have : fromBytesLE rest + 1 ≤ 256 ^ rest.length := hr
        exact Nat.mul_le_mul_left 256 this
    _ = 256 ^ rest.length * 256 := by ring

theorem fromBytesLE_take4_lt (bs : List Nat) (h : ∀ x ∈ bs, x < 256) :
    fromBytesLE (bs.take 4) < 4294967296 := by
  have hmem : ∀ x ∈ bs.take 4, x < 256 := fun x hx => h x (List.mem_of_mem_take hx)
  have hlen : (bs.take 4).length ≤ 4 := by
    simp [List.length_take]
  have := fromBytesLE_lt (bs.take 4) hmem
  calc fromBytesLE (bs.take 4) < 256 ^ (bs.take 4).length := this
  _ ≤ 256 ^ 4 := Nat.pow_le_pow_right (by norm_num) hlen
  _ = 4294967296 := by norm_num

/-! ## UTF-8 lemmas -/

theorem utf8Bytes_no_zero {c : Nat} (hc : c ≠ 0) : ∀ x ∈ utf8Bytes c, x ≠ 0 := by
  intro x hx
  unfold utf8Bytes at hx
  split at hx
  · simp only [List.mem_cons, List.not_mem_nil, or_false] at hx; omega
  · split at hx
    · simp only [List.mem_cons, List.not_mem_nil, or_false] at hx; omega
    · split at hx
      · simp only [List.mem_cons, List.not_mem_nil, or_false] at hx; omega
      · simp only [List.mem_cons, List.not_mem_nil, or_false] at hx; omega

theorem encodeUtf8_no_zero {s : String} (hs : ∀ c ∈ s.data, c ≠ Char.ofNat 0) :
    ∀ x ∈ encodeUtf8 s, x ≠ 0 := by
  intro x hx
  simp only [encodeUtf8, List.mem_flatten, List.mem_map] at hx
  obtain ⟨l, ⟨c, hc, rfl⟩, hxl⟩ := hx
  have hcn : c.toNat ≠ 0 := by
    intro h0
    apply hs c hc
    have : Char.ofNat c.toNat = Char.ofNat 0 := by rw [h0]
    rwa [Char.ofNat_toNat] at this
  exact utf8Bytes_no_zero hcn x hxl

theorem isCont_true {b : Nat} (h1 : 128 ≤ b) (h2 : b ≤ 191) : isCont b = true := by
  simp [isCont]; omega

theorem utf8DecodeReplace_ascii {b : Nat} (h : b < 128) (rest : List Nat) :
    utf8DecodeReplace (b :: rest) = Char.ofNat b :: utf8DecodeReplace rest := by
  rw [utf8DecodeReplace.eq_def]
  simp [h]

theorem utf8DecodeReplace_two {b b1 : Nat} (h1 : 194 ≤ b) (h2 : b < 224)
    (hc : isCont b1 = true) (rest : List Nat) :
    utf8DecodeReplace (b :: b1 :: rest) =
      Char.ofNat ((b - 192) * 64 + (b1 - 128)) :: utf8DecodeReplace rest := by
  rw [utf8DecodeReplace.eq_def]
  simp only [if_neg (by omega : ¬ b < 128), if_neg (by omega : ¬ b < 194), if_pos h2, hc]
  simp

theorem utf8DecodeReplace_three {b b1 b2 : Nat} (h1 : 224 ≤ b) (h2 : b < 240)
    (hc1 : cont1OK3 b b1 = true) (hc2 : isCont b2 = true) (rest : List Nat) :
    utf8DecodeReplace (b :: b1 :: b2 :: rest) =
      Char.ofNat ((b - 224) * 4096 + (b1 - 128) * 64 + (b2 - 128)) ::
        utf8DecodeReplace rest := by
  rw [utf8DecodeReplace.eq_def]
  simp only [if_neg (by omega : ¬ b < 128), if_neg (by omega : ¬ b < 194),
    if_neg (by omega : ¬ b < 224), if_pos h2, hc1, hc2]
  simp

theorem utf8DecodeReplace_four {b b1 b2 b3 : Nat} (h1 : 240 ≤ b) (h2 : b < 245)
    (hc1 : cont1OK4 b b1 = true) (hc2 : isCont b2 = true) (hc3 : isCont b3 = true)
    (rest : List Nat) :
    utf8DecodeReplace (b :: b1 :: b2 :: b3 :: rest) =
      Char.ofNat ((b - 240) * 262144 + (b1 - 128) * 4096 + (b2 - 128) * 64 + (b3 - 128)) ::
        utf8DecodeReplace rest := by
  rw [utf8DecodeReplace.eq_def]
  simp only [if_neg (by omega : ¬ b < 128), if_neg (by omega : ¬ b < 194),
    if_neg (by omega : ¬ b < 224), if_neg (by omega : ¬ b < 240), if_pos h2, hc1, hc2, hc3]
  simp

/-- Decoding a validly encoded scalar at the head of a byte stream recovers
exactly that character and continues with the rest. -/
theorem utf8DecodeReplace_encode_cons (c : Char) (rest : List Nat) :
    utf8DecodeReplace (utf8Bytes c.toNat ++ rest) = c :: utf8DecodeReplace rest := by
  have hv : c.toNat < 55296 ∨ (57343 < c.toNat ∧ c.toNat < 1114112) := c.valid
  set n := c.toNat with hn
  have hofn : Char.ofNat n = c := Char.ofNat_toNat c
  by_cases h1 : n < 128
  · rw [show utf8Bytes n = [n] from if_pos h1]
    simp only [List.cons_append, List.nil_append]
    rw [utf8DecodeReplace_ascii h1, hofn]
  · by_cases h2 : n < 2048
    · rw [show utf8Bytes n = [192 + n / 64, 128 + n % 64] by
        unfold utf8Bytes; rw [if_neg h1, if_pos h2]]
      simp only [List.cons_append, List.nil_append]
      rw [utf8DecodeReplace_two (by omega) (by omega)
        (isCont_true (by omega) (by omega)) rest]
      rw [show (192 + n / 64 - 192) * 64 + (128 + n % 64 - 128) = n by omega, hofn]
    · by_cases h3 : n < 65536
      · rw [show utf8Bytes n = [224 + n / 4096, 128 + n / 64 % 64, 128 + n % 64] by
          unfold utf8Bytes; rw [if_neg h1, if_neg h2, if_pos h3]]
        simp only [List.cons_append, List.nil_append]
        have hcont1 : cont1OK3 (224 + n / 4096) (128 + n / 64 % 64) = true := by
          unfold cont1OK3
          by_cases he0 : 224 + n / 4096 = 224
          · rw [if_pos he0]
            simp only [Bool.and_eq_true, decide_eq_true_eq]
            omega
          · rw [if_neg he0]
            by_cases hed : 224 + n / 4096 = 237
            · rw [if_pos hed]
              simp only [Bool.and_eq_true, decide_eq_true_eq]
              omega
            · rw [if_neg hed]
              exact isCont_true (by omega) (by omega)
        rw [utf8DecodeReplace_three (by omega) (by omega) hcont1
          (isCont_true (by omega) (by omega)) rest]
        rw [show (224 + n / 4096 - 224) * 4096 + (128 + n / 64 % 64 - 128) * 64 +
            (128 + n % 64 - 128) = n by omega, hofn]
      · rw [show utf8Bytes n =
            [240 + n / 262144, 128 + n / 4096 % 64, 128 + n / 64 % 64, 128 + n % 64] by
          unfold utf8Bytes; rw [if_neg h1, if_neg h2, if_neg h3]]
        simp only [List.cons_append, List.nil_append]
        have hcont1 : cont1OK4 (240 + n / 262144) (128 + n / 4096 % 64) = true := by
          unfold cont1OK4
          by_cases hf0 : 240 + n / 262144 = 240
          · rw [if_pos hf0]
            simp only [Bool.and_eq_true, decide_eq_true_eq]
            omega
          · rw [if_neg hf0]
            by_cases hf4 : 240 + n / 262144 = 244
            · rw [if_pos hf4]
              simp only [Bool.and_eq_true, decide_eq_true_eq]
              omega
            · rw [if_neg hf4]
              exact isCont_true (by omega) (by omega)
        rw [utf8DecodeReplace_four (by omega) (by omega) hcont1
          (isCont_true (by omega) (by omega)) (isCont_true (by omega) (by omega)) rest]
        rw [show (240 + n / 262144 - 240) * 262144 + (128 + n / 4096 % 64 - 128) * 4096 +
            (128 + n / 64 % 64 - 128) * 64 + (128 + n % 64 - 128) = n by omega, hofn]

/-- Lossy decoding is a left inverse of UTF-8 encoding on character lists. -/
theorem utf8DecodeReplace_encode (l : List Char) :
    utf8DecodeReplace ((l.map (fun c => utf8Bytes c.toNat)).flatten) = l := by
  induction l with
  | nil => rfl
  | cons c rest ih =>
    simp only [List.map_cons, List.flatten_cons, List.append_assoc]
    rw [utf8DecodeReplace_encode_cons]
    rw [show ((rest.map (fun c => utf8Bytes c.toNat)).flatten) =
      ((rest.map (fun c => utf8Bytes c.toNat)).flatten) ++ [] by simp] at ih
    simp only [List.append_nil] at ih
    rw [ih]

theorem decodeUtf8Replace_encodeUtf8 (s : String) :
    decodeUtf8Replace (encodeUtf8 s) = s := by
  unfold decodeUtf8Replace encodeUtf8
  rw [utf8DecodeReplace_encode]

/-! ## Slot lemmas -/

theorem slotFor_length {s : String} (h : (encodeUtf8 s).length ≤ ENTRY_SIZE) :
    (slotFor s).length = ENTRY_SIZE := by
  simp only [slotFor, List.length_append, List.length_replicate]
  omega

theorem takeWhile_append_replicate_zero (xs : List Nat) (k : Nat)
    (h : ∀ x ∈ xs, x ≠ 0) :
    (xs ++ List.replicate k 0).takeWhile (fun b => b != 0) = xs := by
  induction xs with
  | nil =>
    cases k with
    | zero => rfl
    | succ m => simp [List.replicate_succ, List.takeWhile_cons]
  | cons x rest ih =>
    have hx : x ≠ 0 := h x (List.mem_cons_self x rest)
    rw [List.cons_append, List.takeWhile_cons, if_pos (by simpa using hx)]
    rw [ih (fun y hy => h y (List.mem_cons_of_mem x hy))]

/-- Decoding an entry slot recovers the entry, provided the entry contains no
NUL character. -/
theorem decode_slotFor {s : String}
    (hnul : ∀ c ∈ s.data, c ≠ Char.ofNat 0) :
    decodeUtf8Replace ((slotFor s).takeWhile (fun b => b != 0)) = s := by
  unfold slotFor
  rw [takeWhile_append_replicate_zero _ _ (encodeUtf8_no_zero hnul)]
  exact decodeUtf8Replace_encodeUtf8 s

/-! ## `packBody` lemmas -/

theorem packBody_cons (e : String) (rest : List String) :
    packBody (e :: rest) =
      (if ENTRY_SIZE < (encodeUtf8 e).length then
        .error (.entryTooLong (encodeUtf8 e).length e)
      else
        match packBody rest with
        | .error err => .error err
        | .ok tail =>
          .ok (encodeUtf8 e ++ List.replicate (ENTRY_SIZE - (encodeUtf8 e).length) 0 ++
            tail)) := rfl

theorem packBody_ok_cons {e : String} {rest : List String} {body : List Nat}
    (h : packBody (e :: rest) = .ok body) :
    (encodeUtf8 e).length ≤ ENTRY_SIZE ∧
      ∃ tail, packBody rest = .ok tail ∧ body = slotFor e ++ tail := by
  rw [packBody_cons] at h
  split at h
  · exact absurd h (by simp)
  · rename_i hlen
    split at h
    · exact absurd h (by simp)
    · rename_i tail htail
      refine ⟨by omega, tail, htail, ?_⟩
      have hb := Except.ok.inj h
      rw [← hb, slotFor, List.append_assoc]

theorem packBody_ok_length {es : List String} {body : List Nat}
    (h : packBody es = .ok body) : body.length = ENTRY_SIZE * es.length := by
  induction es generalizing body with
  | nil =>
    rw [packBody] at h
    have := Except.ok.inj h
    simp [← this]
  | cons e rest ih =>
    obtain ⟨hlen, tail, htail, rfl⟩ := packBody_ok_cons h
    rw [List.length_append, slotFor_length hlen, ih htail, List.length_cons]
    ring

theorem packBody_slot {es : List String} {body : List Nat}
    (h : packBody es = .ok body) :
    ∀ i (hi : i < es.length),
      (body.drop (ENTRY_SIZE * i)).take ENTRY_SIZE = slotFor es[i] := by
  induction es generalizing body with
  | nil => intro i hi; exact absurd hi (by simp)
  | cons e rest ih =>
    obtain ⟨hlen, tail, htail, rfl⟩ := packBody_ok_cons h
    intro i hi
    cases i with
    | zero =>
      simp only [Nat.mul_zero, List.drop_zero, List.getElem_cons_zero]
      rw [List.take_append_of_le_length (by rw [slotFor_length hlen]),
        List.take_of_length_le (by rw [slotFor_length hlen])]
    | succ i =>
      have hdrop : (slotFor e ++ tail).drop (ENTRY_SIZE * (i + 1)) =
          tail.drop (ENTRY_SIZE * i) := by
        rw [show ENTRY_SIZE * (i + 1) = (slotFor e).length + ENTRY_SIZE * i by
          rw [slotFor_length hlen]; ring]
        rw [List.drop_append]
      rw [hdrop, List.getElem_cons_succ]
      exact ih htail i (by simpa using hi)

theorem packBody_ok_of_valid {es : List String}
    (h : ∀ s ∈ es, (encodeUtf8 s).length ≤ ENTRY_SIZE) :
    ∃ body, packBody es = .ok body := by
  induction es with
  | nil => exact ⟨[], rfl⟩
  | cons e rest ih =>
    obtain ⟨tail, htail⟩ := ih (fun s hs => h s (List.mem_cons_of_mem e hs))
    refine ⟨encodeUtf8 e ++ List.replicate (ENTRY_SIZE - (encodeUtf8 e).length) 0 ++ tail, ?_⟩
    rw [packBody.eq_def]
    simp only
    rw [if_neg (by have := h e (List.mem_cons_self e rest); omega), htail]

/-- The entry loop reports the first over-long entry, carrying its encoded
length and text. -/
theorem packBody_first_long {pre : List String} {e : String} (suf : List String)
    (hpre : ∀ s ∈ pre, (encodeUtf8 s).length ≤ ENTRY_SIZE)
    (he : ENTRY_SIZE < (encodeUtf8 e).length) :
    packBody (pre ++ e :: suf) = .error (.entryTooLong (encodeUtf8 e).length e) := by
  induction pre with
  | nil =>
    rw [List.nil_append, packBody.eq_def]
    simp only
    rw [if_pos he]
  | cons p rest ih =>
    rw [List.cons_append, packBody.eq_def]
    simp only
    rw [if_neg (by have := hpre p (List.mem_cons_self p rest); omega)]
    rw [ih (fun s hs => hpre s (List.mem_cons_of_mem p hs))]

/-! ## `trailerBytes` lemmas -/

theorem trailerBytes_cons (v : Int) (rest : List Int) :
    trailerBytes (v :: rest) = match toBytes4 v, trailerBytes rest with
      | some b, some t => some (b ++ t)
      | _, _ => none := rfl

theorem trailerBytes_cons_some {v : Int} {rest : List Int} {t : List Nat}
    (h : trailerBytes (v :: rest) = some t) :
    ∃ tl, toBytes4 v = some (leBytes4 v.toNat) ∧ 0 ≤ v ∧ v < 4294967296 ∧
      trailerBytes rest = some tl ∧ t = leBytes4 v.toNat ++ tl := by
  rw [trailerBytes_cons] at h
  cases hv : toBytes4 v with
  | none => rw [hv] at h; simp at h
  | some b =>
    cases ht : trailerBytes rest with
    | none => rw [hv, ht] at h; simp at h
    | some tl =>
      rw [hv, ht] at h
      simp only [Option.some.injEq] at h
      obtain ⟨h0, h1, hb⟩ := toBytes4_eq_some hv
      exact ⟨tl, by rw [hb], h0, h1, rfl, by rw [← h, hb]⟩

theorem trailerBytes_length {md : List Int} {t : List Nat}
    (h : trailerBytes md = some t) : t.length = 4 * md.length := by
  induction md generalizing t with
  | nil =>
    rw [trailerBytes] at h
    simp only [Option.some.injEq] at h
    simp [← h]
  | cons v rest ih =>
    obtain ⟨tl, _, _, _, htl, rfl⟩ := trailerBytes_cons_some h
    rw [List.length_append, leBytes4_length, ih htl, List.length_cons]
    ring

theorem trailerBytes_chunk {md : List Int} {t : List Nat}
    (h : trailerBytes md = some t) :
    ∀ i (hi : i < md.length),
      (t.drop (4 * i)).take 4 = leBytes4 (md[i]).toNat ∧
        0 ≤ md[i] ∧ md[i] < 4294967296 := by
  induction md generalizing t with
  | nil => intro i hi; exact absurd hi (by simp)
  | cons v rest ih =>
    obtain ⟨tl, _, h0, h1, htl, rfl⟩ := trailerBytes_cons_some h
    intro i hi
    cases i with
    | zero =>
      simp only [Nat.mul_zero, List.drop_zero, List.getElem_cons_zero]
      refine ⟨?_, h0, h1⟩
      rw [List.take_append_of_le_length (by rw [leBytes4_length]),
        List.take_of_length_le (by rw [leBytes4_length])]
    | succ i =>
      have hdrop : (leBytes4 v.toNat ++ tl).drop (4 * (i + 1)) = tl.drop (4 * i) := by
        rw [show 4 * (i + 1) = (leBytes4 v.toNat).length + 4 * i by
          rw [leBytes4_length]; ring]
        rw [List.drop_append]
      rw [hdrop, List.getElem_cons_succ]
      exact ih htl i (by simpa using hi)

theorem trailerBytes_ok_of_valid {md : List Int}
    (h : ∀ v ∈ md, 0 ≤ v ∧ v < 4294967296) :
    ∃ t, trailerBytes md = some t := by
  induction md with
  | nil => exact ⟨[], rfl⟩
  | cons v rest ih =>
    obtain ⟨tl, htl⟩ := ih (fun w hw => h w (List.mem_cons_of_mem v hw))
    obtain ⟨h0, h1⟩ := h v (List.mem_cons_self v rest)
    refine ⟨leBytes4 v.toNat ++ tl, ?_⟩
    rw [trailerBytes_cons, toBytes4_of_range h0 h1, htl]

theorem trailerBytes_none_of_invalid {md : List Int} {v : Int}
    (hv : v ∈ md) (h : v < 0 ∨ 4294967296 ≤ v) : trailerBytes md = none := by
  induction md with
  | nil => exact absurd hv (by simp)
  | cons w rest ih =>
    rw [trailerBytes_cons]
    rcases List.mem_cons.mp hv with rfl | hmem
    · rw [show toBytes4 v = none by unfold toBytes4; rw [if_neg (by omega)]]
    · rw [ih hmem]
      cases toBytes4 w <;> rfl

theorem trailerBytes_replicate_zero (n : Nat) :
    trailerBytes (List.replicate n 0) = some (List.replicate (4 * n) 0) := by
  induction n with
  | zero => rfl
  | succ m ih =>
    rw [List.replicate_succ, trailerBytes_cons]
    rw [show toBytes4 0 = some [0, 0, 0, 0] from rfl, ih]
    simp only [Option.some.injEq]
    rw [show 4 * (m + 1) = 4 + 4 * m by ring, List.replicate_add]
    rfl

/-! ## `pack_entries` structure lemmas -/

theorem pack_entries_ok_structure {entries : List String} {header : Int × Int × Int}
    {metadata : Option (List Int)} {buf : List Nat}
    (h : pack_entries entries header metadata = .ok buf) :
    0 ≤ header.1 ∧ header.1 < 4294967296 ∧
    0 ≤ header.2.1 ∧ header.2.1 < 4294967296 ∧
    0 ≤ header.2.2 ∧ header.2.2 < 4294967296 ∧
    entries.length < 4294967296 ∧
    ∃ body trailer,
      packBody entries = .ok body ∧
      (metadata.getD (List.replicate entries.length 0)).length = entries.length ∧
      trailerBytes (metadata.getD (List.replicate entries.length 0)) = some trailer ∧
      buf = leBytes4 header.1.toNat ++ leBytes4 header.2.1.toNat ++
        leBytes4 header.2.2.toNat ++ leBytes4 entries.length ++ body ++ trailer := by
  unfold pack_entries at h
  split at h
  case h_2 => exact absurd h (by simp)
  case h_1 b1 b2 b3 bc h1 h2 h3 hc =>
    obtain ⟨h1a, h1b, h1e⟩ := toBytes4_eq_some h1
    obtain ⟨h2a, h2b, h2e⟩ := toBytes4_eq_some h2
    obtain ⟨h3a, h3b, h3e⟩ := toBytes4_eq_some h3
    obtain ⟨_, hcb, hce⟩ := toBytes4_eq_some hc
    have hcnt : entries.length < 4294967296 := by
      have := hcb
      omega
    have hcnat : ((entries.length : Int)).toNat = entries.length := Int.toNat_natCast _
    refine ⟨h1a, h1b, h2a, h2b, h3a, h3b, hcnt, ?_⟩
    split at h
    · exact absurd h (by simp)
    · rename_i body hbody
      split at h
      · rename_i hmdlen
        split at h
        · rename_i trailer htrailer
          refine ⟨body, trailer, hbody, hmdlen, htrailer, ?_⟩
          have := Except.ok.inj h
          rw [← this, h1e, h2e, h3e, hce, hcnat]
        · exact absurd h (by simp)
      · exact absurd h (by simp)

theorem pack_entries_ok_of_valid {entries : List String} {header : Int × Int × Int}
    {metadata : Option (List Int)}
    (h1 : 0 ≤ header.1 ∧ header.1 < 4294967296)
    (h2 : 0 ≤ header.2.1 ∧ header.2.1 < 4294967296)
    (h3 : 0 ≤ header.2.2 ∧ header.2.2 < 4294967296)
    (hn : entries.length < 4294967296)
    (hent : ∀ s ∈ entries, (encodeUtf8 s).length ≤ ENTRY_SIZE)
    (hmd : (metadata.getD (List.replicate entries.length 0)).length = entries.length)
    (hmdv : ∀ v ∈ metadata.getD (List.replicate entries.length 0),
      0 ≤ v ∧ v < 4294967296) :
    ∃ buf, pack_entries entries header metadata = .ok buf := by
  obtain ⟨body, hbody⟩ := packBody_ok_of_valid hent
  obtain ⟨trailer, htrailer⟩ := trailerBytes_ok_of_valid hmdv
  refine ⟨leBytes4 header.1.toNat ++ leBytes4 header.2.1.toNat ++
    leBytes4 header.2.2.toNat ++ leBytes4 ((entries.length : Int)).toNat ++
    body ++ trailer, ?_⟩
  unfold pack_entries
  rw [toBytes4_of_range h1.1 h1.2, toBytes4_of_range h2.1 h2.2,
    toBytes4_of_range h3.1 h3.2,
    toBytes4_of_range (by omega) (by exact_mod_cast hn), hbody]
  simp only
  rw [if_pos hmd, htrailer]

/-! ## `parse_entries` on well-formed buffers -/

theorem parse_entries_wellformed {b1 b2 b3 : List Nat} {n : Nat}
    {body trailer : List Nat}
    (hb1 : b1.length = 4) (hb2 : b2.length = 4) (hb3 : b3.length = 4)
    (hn : n < 4294967296)
    (hbody : body.length = ENTRY_SIZE * n) (htrailer : trailer.length = 4 * n) :
    parse_entries (b1 ++ b2 ++ b3 ++ leBytes4 n ++ body ++ trailer) =
      .ok ⟨fromBytesLE b1, fromBytesLE b2, fromBytesLE b3, n,
        (List.range n).map (fun idx =>
          decodeUtf8Replace
            ((body.drop (idx * ENTRY_SIZE)).take ENTRY_SIZE |>.takeWhile (fun b => b != 0))),
        (List.range n).map (fun i => fromBytesLE ((trailer.drop (4 * i)).take 4))⟩ := by
  set data := b1 ++ b2 ++ b3 ++ leBytes4 n ++ body ++ trailer with hdata
  have hlen : data.length = 16 + n * ENTRY_SIZE + n * 4 := by
    simp only [hdata, List.length_append, leBytes4_length, hb1, hb2, hb3, hbody, htrailer,
      ENTRY_SIZE]
    omega
  have hd0 : data.drop 0 = data := List.drop_zero data
  have h12 : b1 ++ b2 ++ b3 = (b1 ++ b2) ++ b3 := by rw [List.append_assoc]
  -- header field extraction
  have hmagic : (data.drop 0).take 4 = b1 := by
    rw [hd0, hdata]
    simp only [List.append_assoc]
    rw [List.take_append_of_le_length (by omega), List.take_of_length_le (by omega)]
  have hversion : (data.drop 4).take 4 = b2 := by
    rw [hdata]
    simp only [List.append_assoc]
    rw [List.drop_left' hb1,
      List.take_append_of_le_length (by omega), List.take_of_length_le (by omega)]
  have hflags : (data.drop 8).take 4 = b3 := by
    rw [hdata]
    rw [show ((((b1 ++ b2 ++ b3 ++ leBytes4 n) ++ body) ++ trailer) : List Nat) =
      (b1 ++ b2) ++ (b3 ++ (leBytes4 n ++ (body ++ trailer))) by
        simp only [List.append_assoc]]
    rw [List.drop_left' (by rw [List.length_append]; omega),
      List.take_append_of_le_length (by omega), List.take_of_length_le (by omega)]
  have hcountb : (data.drop 12).take 4 = leBytes4 n := by
    rw [hdata]
    rw [show ((((b1 ++ b2 ++ b3 ++ leBytes4 n) ++ body) ++ trailer) : List Nat) =
      (b1 ++ b2 ++ b3) ++ (leBytes4 n ++ (body ++ trailer)) by
        simp only [List.append_assoc]]
    rw [List.drop_left' (by simp only [List.length_append]; omega),
      List.take_append_of_le_length (by rw [leBytes4_length]),
      List.take_of_length_le (by rw [leBytes4_length])]
  have hcount : fromBytesLE ((data.drop 12).take 4) = n := by
    rw [hcountb, fromBytesLE_leBytes4 n hn]
  -- body and trailer extraction
  have hdropslot : ∀ idx, idx < n →
      (data.drop (16 + idx * ENTRY_SIZE)).take ENTRY_SIZE =
        (body.drop (idx * ENTRY_SIZE)).take ENTRY_SIZE := by
    intro idx hidx
    rw [hdata]
    rw [show ((((b1 ++ b2 ++ b3 ++ leBytes4 n) ++ body) ++ trailer) : List Nat) =
      (b1 ++ b2 ++ b3 ++ leBytes4 n) ++ (body ++ trailer) by
        simp only [List.append_assoc]]
    rw [show 16 + idx * ENTRY_SIZE =
      (b1 ++ b2 ++ b3 ++ leBytes4 n).length + idx * ENTRY_SIZE by
        simp only [List.length_append, leBytes4_length]; omega]
    rw [List.drop_append]
    rw [List.drop_append_of_le_length
      (by rw [hbody]; simp only [ENTRY_SIZE]; omega)]
    rw [List.take_append_of_le_length]
    rw [List.length_drop, hbody]
    simp only [ENTRY_SIZE]
    omega
  have hdroptrailer : data.drop (16 + n * ENTRY_SIZE) = trailer := by
    rw [hdata]
    rw [show ((((b1 ++ b2 ++ b3 ++ leBytes4 n) ++ body) ++ trailer) : List Nat) =
      ((b1 ++ b2 ++ b3 ++ leBytes4 n) ++ body) ++ trailer by rfl]
    rw [List.drop_left']
    simp only [List.length_append, leBytes4_length, hb1, hb2, hb3, hbody, ENTRY_SIZE]
    omega
  -- now evaluate parse_entries
  unfold parse_entries
  rw [if_neg (by omega)]
  simp only [hcount, hdroptrailer]
  rw [if_neg (by omega), if_neg (by omega)]
  simp only [Except.ok.injEq, Record.mk.injEq]
  refine ⟨by rw [hmagic], by rw [hversion], by rw [hflags], trivial, ?_, trivial⟩
  apply List.map_congr_left
  intro idx hidx
  rw [hdropslot idx (List.mem_range.mp hidx)]

theorem packBody_ok_valid {es : List String} {body : List Nat}
    (h : packBody es = .ok body) :
    ∀ s ∈ es, (encodeUtf8 s).length ≤ ENTRY_SIZE := by
  induction es generalizing body with
  | nil => intro s hs; exact absurd hs (by simp)
  | cons e rest ih =>
    obtain ⟨hlen, tail, htail, _⟩ := packBody_ok_cons h
    intro s hs
    rcases List.mem_cons.mp hs with rfl | hmem
    · exact hlen
    · exact ih htail s hmem

/-- C1 (amended): for every record the encoder accepts whose entries contain no
NUL character, `parse_entries (pack_entries entries header metadata)` succeeds
and returns the header triple in magic/version/flags, the entry count, the
entries exactly in order with no residual padding, and the metadata exactly in
order.  (As stated the claim is false: an entry containing U+0000 is within
every bound the claim imposes, yet decode truncates it at its first zero byte —
see the counterexample.) -/
theorem pack_parse_round_trip {entries : List String} {header : Int × Int × Int}
    {metadata : Option (List Int)} {buf : List Nat}
    (hok : pack_entries entries header metadata = .ok buf)
    (hnul : ∀ s ∈ entries, ∀ c ∈ s.data, c ≠ Char.ofNat 0) :
    ∃ rec, parse_entries buf = .ok rec ∧
      (rec.magic : Int) = header.1 ∧ (rec.version : Int) = header.2.1 ∧
      (rec.flags : Int) = header.2.2 ∧ rec.count = entries.length ∧
      rec.entries = entries ∧
      rec.metadata.map Int.ofNat =
        metadata.getD (List.replicate entries.length 0) := by
  obtain ⟨h1a, h1b, h2a, h2b, h3a, h3b, hcnt, body, trailer, hbody, hmdlen, htrailer, rfl⟩ :=
    pack_entries_ok_structure hok
  have hblen := packBody_ok_length hbody
  have htlen := trailerBytes_length htrailer
  have hparse := parse_entries_wellformed (leBytes4_length header.1.toNat)
    (leBytes4_length header.2.1.toNat) (leBytes4_length header.2.2.toNat) hcnt
    hblen (by rw [htlen, hmdlen])
  refine ⟨_, hparse, ?_, ?_, ?_, rfl, ?_, ?_⟩
  · show (↑(fromBytesLE (leBytes4 header.1.toNat)) : Int) = header.1
    rw [fromBytesLE_leBytes4 _ (by omega), Int.toNat_of_nonneg h1a]
  · show (↑(fromBytesLE (leBytes4 header.2.1.toNat)) : Int) = header.2.1
    rw [fromBytesLE_leBytes4 _ (by omega), Int.toNat_of_nonneg h2a]
  · show (↑(fromBytesLE (leBytes4 header.2.2.toNat)) : Int) = header.2.2
    rw [fromBytesLE_leBytes4 _ (by omega), Int.toNat_of_nonneg h3a]
  · -- entries round-trip
    apply List.ext_getElem
    · simp
    · intro i hi1 hi2
      have hi : i < entries.length := by simpa using hi2
      simp only [List.getElem_map, List.getElem_range]
      rw [Nat.mul_comm i ENTRY_SIZE, packBody_slot hbody i hi]
      exact decode_slotFor (hnul _ (List.getElem_mem hi))
  · -- metadata round-trip
    apply List.ext_getElem
    · rw [List.length_map, List.length_map, List.length_range]
      exact hmdlen.symm
    · intro i hi1 hi2
      have hi : i < (metadata.getD (List.replicate entries.length 0)).length := by
        simpa using hi2
      simp only [List.getElem_map, List.getElem_range]
      obtain ⟨hchunk, hv0, hv1⟩ := trailerBytes_chunk htrailer i hi
      rw [hchunk, fromBytesLE_leBytes4 _ (by omega)]
      exact Int.toNat_of_nonneg hv0

/-! ## Unfolded form of `parse_entries` and slice helpers -/

/-- `parse_entries` with its Python locals inlined. -/
theorem parse_entries_def (data : List Nat) :
    parse_entries data =
      if data.length < 16 then .error .truncatedHeader
      else if data.length ≠ expectedSize data then
        .error (.sizeMismatch data.length (expectedSize data))
      else if (data.drop (16 + fromBytesLE ((data.drop 12).take 4) * ENTRY_SIZE)).length ≠
          fromBytesLE ((data.drop 12).take 4) * 4 then
        .error (.trailerSizeMismatch
          (data.drop (16 + fromBytesLE ((data.drop 12).take 4) * ENTRY_SIZE)).length
          (fromBytesLE ((data.drop 12).take 4) * 4))
      else
        .ok ⟨fromBytesLE ((data.drop 0).take 4), fromBytesLE ((data.drop 4).take 4),
          fromBytesLE ((data.drop 8).take 4), fromBytesLE ((data.drop 12).take 4),
          (List.range (fromBytesLE ((data.drop 12).take 4))).map (fun idx =>
            decodeUtf8Replace
              (((data.drop (16 + idx * ENTRY_SIZE)).take ENTRY_SIZE).takeWhile
                (fun b => b != 0))),
          (List.range (fromBytesLE ((data.drop 12).take 4))).map (fun i =>
            fromBytesLE
              (((data.drop (16 + fromBytesLE ((data.drop 12).take 4) * ENTRY_SIZE)).drop
                (4 * i)).take 4))⟩ := rfl

theorem drop12_take4 {b1 b2 b3 bc body trailer : List Nat}
    (hb1 : b1.length = 4) (hb2 : b2.length = 4) (hb3 : b3.length = 4)
    (hbc : bc.length = 4) :
    ((b1 ++ b2 ++ b3 ++ bc ++ body ++ trailer).drop 12).take 4 = bc := by
  rw [show (b1 ++ b2 ++ b3 ++ bc ++ body ++ trailer : List Nat) =
    (b1 ++ b2 ++ b3) ++ (bc ++ (body ++ trailer)) by simp only [List.append_assoc]]
  rw [List.drop_left' (by simp only [List.length_append]; omega),
    List.take_append_of_le_length (by omega), List.take_of_length_le (by omega)]

theorem drop_16_body {b1 b2 b3 bc body trailer : List Nat}
    (hb1 : b1.length = 4) (hb2 : b2.length = 4) (hb3 : b3.length = 4)
    (hbc : bc.length = 4) :
    (b1 ++ b2 ++ b3 ++ bc ++ body ++ trailer).drop (16 + body.length) = trailer := by
  rw [show (b1 ++ b2 ++ b3 ++ bc ++ body ++ trailer : List Nat) =
    ((b1 ++ b2 ++ b3 ++ bc) ++ body) ++ trailer by simp only [List.append_assoc]]
  rw [List.drop_left' (by simp only [List.length_append]; omega)]

/-- C1 counterexample: the single-character entry `"\x00"` has a one-byte UTF-8
encoding (well under 260) and matching metadata length, yet the round trip
returns `""`, not the original entry: the decoder splits each slot at its first
zero byte, which here is the entry's own content. -/
theorem round_trip_nul_counterexample :
    pack_entries [nulEntry] (2008, 1, 7) (some [0]) = .ok nulBuf ∧
    (encodeUtf8 nulEntry).length = 1 ∧
    parse_entries nulBuf = .ok ⟨2008, 1, 7, 1, [""], [0]⟩ ∧
    ([""] : List String) ≠ [nulEntry] := by decide

/-- C1 witness: the round-trip theorem applied to `["a"]`, header
`(2008, 1, 7)`, no metadata. -/
theorem round_trip_witness :
    ∃ rec, parse_entries demoBufA = .ok rec ∧
      (rec.magic : Int) = 2008 ∧ (rec.version : Int) = 1 ∧ (rec.flags : Int) = 7 ∧
      rec.count = 1 ∧ rec.entries = ["a"] ∧ rec.metadata.map Int.ofNat = [0] :=
  @pack_parse_round_trip ["a"] (2008, 1, 7) none demoBufA (by decide) (by decide)

/-- C8 (amended): the concrete scenario of the spec, with the buffer size
corrected from 552 to 544 (= 16 + 2*260 + 2*4): packing `["a", "bb"]` with
header `(2008, 1, 7)` and no metadata yields a 544-byte buffer with the stated
first 16 bytes, first entry slot and all-zero 8-byte trailer, and parsing it
returns the stated record. -/
theorem concrete_scenario :
    pack_entries ["a", "bb"] (2008, 1, 7) none = .ok demoBuf ∧
    demoBuf.length = 544 ∧
    demoBuf.take 16 = [216, 7, 0, 0, 1, 0, 0, 0, 7, 0, 0, 0, 2, 0, 0, 0] ∧
    (demoBuf.drop 16).take 260 = 97 :: List.replicate 259 0 ∧
    demoBuf.drop 536 = List.replicate 8 0 ∧
    parse_entries demoBuf = .ok ⟨2008, 1, 7, 2, ["a", "bb"], [0, 0]⟩ := by decide

/-- C8 counterexample: the buffer for the spec's concrete scenario has 544
bytes, not 552 as the claim states (16 + 2*260 + 2*4 = 544). -/
theorem concrete_scenario_counterexample :
    pack_entries ["a", "bb"] (2008, 1, 7) none = .ok demoBuf ∧
    demoBuf.length ≠ 552 := by decide

/-- C5: every buffer `pack_entries` returns has length exactly
`16 + 260*len(entries) + 4*len(entries)`. -/
theorem size_law {entries : List String} {header : Int × Int × Int}
    {metadata : Option (List Int)} {buf : List Nat}
    (h : pack_entries entries header metadata = .ok buf) :
    buf.length = 16 + 260 * entries.length + 4 * entries.length := by
  obtain ⟨_, _, _, _, _, _, _, body, trailer, hbody, hmdlen, htrailer, rfl⟩ :=
    pack_entries_ok_structure h
  have hblen := packBody_ok_length hbody
  have htlen := trailerBytes_length htrailer
  simp only [List.length_append, leBytes4_length, hblen, htlen, hmdlen, ENTRY_SIZE]

/-- C5 witness: the size law at `["a", "bb"]`, header `(2008, 1, 7)`, no
metadata. -/
theorem size_law_witness : demoBuf.length = 16 + 260 * 2 + 4 * 2 :=
  @size_law ["a", "bb"] (2008, 1, 7) none demoBuf (by decide)

/-- C6: in every buffer `pack_entries` returns, the little-endian u32 at
offsets 12..16 equals `len(entries)`; the count is derived from the entry list
(the header argument has only the three slots magic/version/flags, so a caller
cannot supply it). -/
theorem count_derivation {entries : List String} {header : Int × Int × Int}
    {metadata : Option (List Int)} {buf : List Nat}
    (h : pack_entries entries header metadata = .ok buf) :
    fromBytesLE ((buf.drop 12).take 4) = entries.length := by
  obtain ⟨_, _, _, _, _, _, hcnt, body, trailer, hbody, hmdlen, htrailer, rfl⟩ :=
    pack_entries_ok_structure h
  rw [drop12_take4 (leBytes4_length _) (leBytes4_length _) (leBytes4_length _)
    (leBytes4_length _)]
  exact fromBytesLE_leBytes4 _ hcnt

/-- C6 witness: the count field of the buffer for `["a", "bb"]` reads back 2. -/
theorem count_derivation_witness : fromBytesLE ((demoBuf.drop 12).take 4) = 2 :=
  @count_derivation ["a", "bb"] (2008, 1, 7) none demoBuf (by decide)

/-- C3 (amended): the empty-input rejection is not in `pack_entries` but in
`load_entries`: `load_entries` raises `"No entries found to pack"` when the
parsed entry list is empty, while `pack_entries` itself accepts an empty entry
list (for any in-range header) and returns the 16-byte header-only buffer with
count 0, an empty body and an empty trailer. -/
theorem emptyInput_location (header : Int × Int × Int)
    (h1 : 0 ≤ header.1 ∧ header.1 < 4294967296)
    (h2 : 0 ≤ header.2.1 ∧ header.2.1 < 4294967296)
    (h3 : 0 ≤ header.2.2 ∧ header.2.2 < 4294967296) :
    load_entries_validate [] = .error .emptyInput ∧
    ∃ buf, pack_entries [] header none = .ok buf ∧ buf.length = 16 := by
  refine ⟨rfl, ?_⟩
  obtain ⟨buf, hbuf⟩ := @pack_entries_ok_of_valid [] header none
    h1 h2 h3 (by decide) (by intro s hs; exact absurd hs (by simp))
    (by simp) (by intro v hv; exact absurd hv (by simp))
  refine ⟨buf, hbuf, ?_⟩
  obtain ⟨_, _, _, _, _, _, _, body, trailer, hbody, _, htrailer, rfl⟩ :=
    pack_entries_ok_structure hbuf
  have h0 : body = [] := Except.ok.inj hbody.symm
  have h0t : trailer = [] := by
    have : trailerBytes ((none : Option (List Int)).getD (List.replicate 0 0)) =
        some [] := rfl
    have := htrailer.symm.trans this
    simpa using this
  simp [h0, h0t, leBytes4_length]

/-- C3 counterexample: `pack_entries` called with an empty entry list does not
fail; it returns a 16-byte buffer. -/
theorem emptyInput_counterexample :
    pack_entries [] (2008, 1, 7) none =
      .ok [216, 7, 0, 0, 1, 0, 0, 0, 7, 0, 0, 0, 0, 0, 0, 0] := by decide

/-- C3 witness: the amended theorem at header `(2008, 1, 7)`. -/
theorem emptyInput_location_witness :
    load_entries_validate [] = .error .emptyInput ∧
    ∃ buf, pack_entries [] (2008, 1, 7) none = .ok buf ∧ buf.length = 16 :=
  emptyInput_location (2008, 1, 7) (by decide) (by decide) (by decide)

/-- C4 (amended): with an in-range header and entry count, an entry whose UTF-8
encoding is exactly 260 bytes is accepted (any list whose entries all fit is
packed), and the first entry whose encoding exceeds 260 bytes makes
`pack_entries` fail with an `EntryTooLong` error that reports the offending
entry's encoded length and its text — not its index — without truncating. -/
theorem entry_length_boundary (header : Int × Int × Int)
    (h1 : 0 ≤ header.1 ∧ header.1 < 4294967296)
    (h2 : 0 ≤ header.2.1 ∧ header.2.1 < 4294967296)
    (h3 : 0 ≤ header.2.2 ∧ header.2.2 < 4294967296) :
    (∀ entries : List String, entries.length < 4294967296 →
      (∀ s ∈ entries, (encodeUtf8 s).length ≤ ENTRY_SIZE) →
      ∃ buf, pack_entries entries header none = .ok buf) ∧
    (∀ (pre suf : List String) (e : String) (metadata : Option (List Int)),
      (pre ++ e :: suf).length < 4294967296 →
      (∀ s ∈ pre, (encodeUtf8 s).length ≤ ENTRY_SIZE) →
      ENTRY_SIZE < (encodeUtf8 e).length →
      pack_entries (pre ++ e :: suf) header metadata =
        .error (.entryTooLong (encodeUtf8 e).length e)) := by
  constructor
  · intro entries hn hent
    refine pack_entries_ok_of_valid h1 h2 h3 hn hent (by simp) ?_
    intro v hv
    have hv0 : v = 0 := by
      simp only [Option.getD_none, List.mem_replicate] at hv
      exact hv.2
    rw [hv0]
    exact ⟨by decide, by decide⟩
  · intro pre suf e metadata hn hpre he
    unfold pack_entries
    rw [toBytes4_of_range h1.1 h1.2, toBytes4_of_range h2.1 h2.2,
      toBytes4_of_range h3.1 h3.2, toBytes4_of_range (by omega) (by exact_mod_cast hn),
      packBody_first_long suf hpre he]

/-- C4 counterexample: the same `EntryTooLong` payload is produced whether the
offending 261-byte entry sits at index 0 or at index 1, so the error does not
report the entry's index; it carries the encoded length and the entry text. -/
theorem entry_length_boundary_counterexample :
    pack_entries [entry261] (2008, 1, 7) none =
      .error (.entryTooLong 261 entry261) ∧
    pack_entries ["x", entry261] (2008, 1, 7) none =
      .error (.entryTooLong 261 entry261) := by decide

/-- C4 witness: a 260-byte entry is accepted; a 261-byte entry at index 1 is
rejected with its length and text. -/
theorem entry_length_boundary_witness :
    (∃ buf, pack_entries [entry260] (2008, 1, 7) none = .ok buf) ∧
    pack_entries (["x"] ++ entry261 :: []) (2008, 1, 7) none =
      .error (.entryTooLong (encodeUtf8 entry261).length entry261) := by
  obtain ⟨hacc, hrej⟩ :=
    entry_length_boundary (2008, 1, 7) (by decide) (by decide) (by decide)
  exact ⟨hacc [entry260] (by decide) (by decide),
    hrej ["x"] [] entry261 none (by decide) (by decide) (by decide)⟩

/-- C7: metadata resolution.  (a) With no metadata the trailer of any returned
buffer is `4*len(entries)` zero bytes (the synthesized zero-filled sequence);
(b) with metadata of the wrong length — the header being in range and every
entry fitting its slot, so that execution reaches the metadata check —
`pack_entries` fails with `MetadataCountMismatch` carrying the supplied and
expected counts; (c) with metadata of matching length the trailer of any
returned buffer is exactly the metadata serialized as little-endian u32 values
in entry order. -/
theorem metadata_resolution (entries : List String) (header : Int × Int × Int) :
    (∀ buf, pack_entries entries header none = .ok buf →
      buf.drop (16 + 260 * entries.length) = List.replicate (4 * entries.length) 0) ∧
    (∀ m : List Int,
      (0 ≤ header.1 ∧ header.1 < 4294967296) →
      (0 ≤ header.2.1 ∧ header.2.1 < 4294967296) →
      (0 ≤ header.2.2 ∧ header.2.2 < 4294967296) →
      entries.length < 4294967296 →
      (∀ s ∈ entries, (encodeUtf8 s).length ≤ ENTRY_SIZE) →
      m.length ≠ entries.length →
      pack_entries entries header (some m) =
        .error (.metadataCountMismatch m.length entries.length)) ∧
    (∀ (m : List Int) (buf : List Nat),
      pack_entries entries header (some m) = .ok buf →
      ∃ t, trailerBytes m = some t ∧ buf.drop (16 + 260 * entries.length) = t) := by
  refine ⟨?_, ?_, ?_⟩
  · intro buf hbuf
    obtain ⟨_, _, _, _, _, _, _, body, trailer, hbody, _, htrailer, rfl⟩ :=
      pack_entries_ok_structure hbuf
    have hblen := packBody_ok_length hbody
    have ht : trailer = List.replicate (4 * entries.length) 0 := by
      have h0 : trailerBytes ((none : Option (List Int)).getD
          (List.replicate entries.length 0)) =
          some (List.replicate (4 * entries.length) 0) := by
        simpa using trailerBytes_replicate_zero entries.length
      exact Option.some.inj (htrailer.symm.trans h0)
    rw [show 16 + 260 * entries.length = 16 + body.length by
      rw [hblen]; simp only [ENTRY_SIZE]]
    rw [drop_16_body (leBytes4_length _) (leBytes4_length _) (leBytes4_length _)
      (leBytes4_length _), ht]
  · intro m h1 h2 h3 hn hent hne
    obtain ⟨body, hbody⟩ := packBody_ok_of_valid hent
    unfold pack_entries
    rw [toBytes4_of_range h1.1 h1.2, toBytes4_of_range h2.1 h2.2,
      toBytes4_of_range h3.1 h3.2,
      toBytes4_of_range (by omega) (by exact_mod_cast hn), hbody]
    simp only [Option.getD_some]
    rw [if_neg hne]
  · intro m buf hbuf
    obtain ⟨_, _, _, _, _, _, _, body, trailer, hbody, _, htrailer, rfl⟩ :=
      pack_entries_ok_structure hbuf
    have hblen := packBody_ok_length hbody
    refine ⟨trailer, by simpa using htrailer, ?_⟩
    rw [show 16 + 260 * entries.length = 16 + body.length by
      rw [hblen]; simp only [ENTRY_SIZE]]
    exact drop_16_body (leBytes4_length _) (leBytes4_length _) (leBytes4_length _)
      (leBytes4_length _)

/-- C7 witness: the three branches at entries `["a"]`, header `(2008, 1, 7)`:
default trailer of four zero bytes, mismatch error for metadata `[1, 2]`, and
the serialized trailer for metadata `[5]`. -/
theorem metadata_resolution_witness :
    demoBufA.drop 276 = List.replicate 4 0 ∧
    pack_entries ["a"] (2008, 1, 7) (some [1, 2]) =
      .error (.metadataCountMismatch 2 1) ∧
    (∃ t, trailerBytes [(5 : Int)] = some t ∧ demoBufA5.drop 276 = t) := by
  obtain ⟨ha, hb, hc⟩ := metadata_resolution ["a"] (2008, 1, 7)
  exact ⟨ha demoBufA (by decide),
    hb [1, 2] (by decide) (by decide) (by decide) (by decide) (by decide) (by decide),
    hc [5] demoBufA5 (by decide)⟩

/-- C9: `pack_entries` never returns a buffer when a header component or a
supplied metadata value lies outside `[0, 2^32)` — each such value goes through
the 4-byte little-endian conversion, which rejects out-of-range integers. -/
theorem u32_range_enforced (entries : List String) (header : Int × Int × Int)
    (metadata : Option (List Int))
    (h : (header.1 < 0 ∨ 4294967296 ≤ header.1) ∨
      (header.2.1 < 0 ∨ 4294967296 ≤ header.2.1) ∨
      (header.2.2 < 0 ∨ 4294967296 ≤ header.2.2) ∨
      (∃ m, metadata = some m ∧ ∃ v ∈ m, v < 0 ∨ 4294967296 ≤ v)) :
    ∃ err, pack_entries entries header metadata = .error err := by
  cases hp : pack_entries entries header metadata with
  | error err => exact ⟨err, rfl⟩
  | ok buf =>
    exfalso
    obtain ⟨h1a, h1b, h2a, h2b, h3a, h3b, _, _, trailer, _, _, htrailer, _⟩ :=
      pack_entries_ok_structure hp
    rcases h with h | h | h | ⟨m, rfl, v, hvm, hv⟩
    · omega
    · omega
    · omega
    · rw [Option.getD_some] at htrailer
      rw [trailerBytes_none_of_invalid hvm hv] at htrailer
      exact absurd htrailer (by simp)

/-- C9 witness: a negative magic value is rejected. -/
theorem u32_range_enforced_witness :
    ∃ err, pack_entries ["a"] (-1, 1, 7) none = .error err :=
  u32_range_enforced ["a"] (-1, 1, 7) none (Or.inl (Or.inl (by decide)))

/-- C10: every record `parse_entries` returns (for a genuine byte buffer, each
element below 256) satisfies `len(entries) = len(metadata) = count`, and every
header field and metadata value lies in `[0, 2^32)` (values are `Nat`, hence
non-negative). -/
theorem decoder_output_invariant {data : List Nat} {rec : Record}
    (hbytes : ∀ b ∈ data, b < 256)
    (h : parse_entries data = .ok rec) :
    rec.entries.length = rec.count ∧ rec.metadata.length = rec.count ∧
    rec.magic < 4294967296 ∧ rec.version < 4294967296 ∧
    rec.flags < 4294967296 ∧ rec.count < 4294967296 ∧
    ∀ v ∈ rec.metadata, v < 4294967296 := by
  rw [parse_entries_def] at h
  split at h
  · exact absurd h (by simp)
  · split at h
    · exact absurd h (by simp)
    · split at h
      · exact absurd h (by simp)
      · have hrec := Except.ok.inj h
        subst hrec
        refine ⟨by simp, by simp, ?_, ?_, ?_, ?_, ?_⟩
        · exact fromBytesLE_take4_lt _
            (fun b hb => hbytes b (List.mem_of_mem_drop hb))
        · exact fromBytesLE_take4_lt _
            (fun b hb => hbytes b (List.mem_of_mem_drop hb))
        · exact fromBytesLE_take4_lt _
            (fun b hb => hbytes b (List.mem_of_mem_drop hb))
        · exact fromBytesLE_take4_lt _
            (fun b hb => hbytes b (List.mem_of_mem_drop hb))
        · intro v hv
          simp only [List.mem_map, List.mem_range] at hv
          obtain ⟨i, _, rfl⟩ := hv
          exact fromBytesLE_take4_lt _
            (fun b hb => hbytes b
              (List.mem_of_mem_drop (List.mem_of_mem_drop hb)))

/-- C10 witness: the invariant at the 16-byte all-zero buffer (count 0). -/
theorem decoder_output_invariant_witness :
    ([] : List String).length = 0 ∧ ([] : List Nat).length = 0 ∧
    (0 : Nat) < 4294967296 ∧ (0 : Nat) < 4294967296 ∧
    (0 : Nat) < 4294967296 ∧ (0 : Nat) < 4294967296 ∧
    ∀ v ∈ ([] : List Nat), v < 4294967296 :=
  @decoder_output_invariant (List.replicate 16 0) ⟨0, 0, 0, 0, [], []⟩
    (by decide) (by decide)

/-- C2: decode failure conditions and totality.  `parse_entries` fails with
`TruncatedHeader` exactly when the buffer is shorter than 16 bytes; it fails
with `SizeMismatch` — always carrying the actual length and the expected size
`16 + count*260 + count*4` computed from the little-endian u32 at offset 12 —
exactly when the buffer is long enough but of the wrong total size; and on
every buffer of the expected size it succeeds, for any byte pattern (the lossy
UTF-8 repair is total-by-construction, and `Except` returns no partial result
on failure). -/
theorem parse_failure_conditions (data : List Nat) :
    (parse_entries data = .error .truncatedHeader ↔ data.length < 16) ∧
    (parse_entries data = .error (.sizeMismatch data.length (expectedSize data)) ↔
      16 ≤ data.length ∧ data.length ≠ expectedSize data) ∧
    ((∃ a e, parse_entries data = .error (.sizeMismatch a e)) →
      parse_entries data = .error (.sizeMismatch data.length (expectedSize data))) ∧
    (data.length = expectedSize data → ∃ rec, parse_entries data = .ok rec) := by
  by_cases h16 : data.length < 16
  · have hpe : parse_entries data = .error .truncatedHeader := by
      rw [parse_entries_def, if_pos h16]
    refine ⟨⟨fun _ => h16, fun _ => hpe⟩, ⟨?_, ?_⟩, ?_, ?_⟩
    · intro hcontra; rw [hpe] at hcontra; simp at hcontra
    · intro hcontra; omega
    · rintro ⟨a, e, hae⟩; rw [hpe] at hae; simp at hae
    · intro heq
      have h16e : 16 ≤ expectedSize data := by simp only [expectedSize]; omega
      omega
  · by_cases hsz : data.length = expectedSize data
    · have htr : ¬ ((data.drop
          (16 + fromBytesLE ((data.drop 12).take 4) * ENTRY_SIZE)).length ≠
          fromBytesLE ((data.drop 12).take 4) * 4) := by
        rw [List.length_drop]
        simp only [expectedSize, ENTRY_SIZE] at hsz ⊢
        omega
      have hpe : ∃ rec, parse_entries data = .ok rec := by
        rw [parse_entries_def, if_neg h16, if_neg (by omega), if_neg htr]
        exact ⟨_, rfl⟩
      obtain ⟨rec, hrec⟩ := hpe
      refine ⟨⟨?_, ?_⟩, ⟨?_, ?_⟩, ?_, fun _ => ⟨rec, hrec⟩⟩
      · intro hcontra; rw [hrec] at hcontra; simp at hcontra
      · intro hcontra; omega
      · intro hcontra; rw [hrec] at hcontra; simp at hcontra
      · intro hcontra; exact absurd hsz hcontra.2
      · rintro ⟨a, e, hae⟩; rw [hrec] at hae; simp at hae
    · have hpe : parse_entries data =
          .error (.sizeMismatch data.length (expectedSize data)) := by
        rw [parse_entries_def, if_neg h16, if_pos hsz]
      refine ⟨⟨?_, ?_⟩, ⟨fun _ => ⟨by omega, hsz⟩, fun _ => hpe⟩, fun _ => hpe, ?_⟩
      · intro hcontra; rw [hpe] at hcontra; simp at hcontra
      · intro hcontra; omega
      · intro heq; exact absurd heq hsz

/-- C2 witness: a truncated buffer, a size-valid buffer (count 0), and a
buffer one byte too long. -/
theorem parse_failure_conditions_witness :
    parse_entries [] = .error .truncatedHeader ∧
    (∃ rec, parse_entries (List.replicate 16 0) = .ok rec) ∧
    parse_entries (List.replicate 17 0) = .error (.sizeMismatch 17 16) := by
  refine ⟨(parse_failure_conditions []).1.mpr (by decide),
    (parse_failure_conditions (List.replicate 16 0)).2.2.2 (by decide), ?_⟩
  exact (parse_failure_conditions (List.replicate 17 0)).2.1.mpr
    ⟨by decide, by decide⟩

end Checkbin
